import Mathlib

set_option maxRecDepth 100000
set_option maxHeartbeats 1000000

/-!
Shallow embedding of the chunk-decompression core of `src/bmp/extract_bmp.py`
(class `CustomBmpDumper`): the scratch-buffer state, `next_data`,
`decompress_next` (command-byte / back-reference decoder) and `write_data`
(scanline assembly and emission).  Bytes are modelled as `Nat` (all values
produced by a byte stream are < 256; none of the arithmetic here overflows),
the input stream as a list with a cursor (`io.BytesIO`), and Python
exceptions as an explicit error type.
-/

/-- Python exception outcomes: `bmp msg` models `raise BmpDumpingException(msg)`,
`index` models an uncaught `IndexError` from an out-of-range `bytes`/`bytearray`
subscript.  `fuelOut` is an artifact of the bounded unfolding of the
decompression loop; `decompress_next` supplies fuel `9 * data.length + 10`,
which is proved sufficient below (`decompLoop_no_fuelOut`). -/
inductive PyErr where
  | bmp (msg : String)
  | index
  | fuelOut
  deriving DecidableEq

/-- The mutable state of `CustomBmpDumper` used by the core: the input stream
(`self.reader`, a byte list plus read cursor), `self.decompress_buffer`,
`self.decompress_pos` and `self.decompress_size`. -/
structure DState where
  input : List Nat
  inputPos : Nat
  buf : List Nat
  pos : Nat
  size : Nat
  deriving DecidableEq

/-- `self.reader.read(n)`: returns up to `n` bytes from the current read cursor
and advances the cursor by the number of bytes actually returned. -/
def readBytes (s : DState) (n : Nat) : List Nat × DState :=
  let bs := (s.input.drop s.inputPos).take n
  (bs, { s with inputPos := s.inputPos + bs.length })

/-- `bytearray` subscript assignment `l[i] = v`: in range it updates in place,
out of range Python raises `IndexError`.  (All indices reached by the decoder
are nonnegative, so Python's negative-index wraparound never applies.) -/
def bufSet (l : List Nat) (i v : Nat) : Except PyErr (List Nat) :=
  if i < l.length then .ok (l.set i v) else .error .index

/-- The back-reference expansion loop of `decompress_next` (source lines
208-211): `repeat_count` times, read `decompress_buffer[pos - offset]`, write
it at `decompress_buffer[pos]`, and advance `pos` by one.  The caller has
already established `0 < offset ≤ pos`, so the read index is a nonnegative
in-range index whenever the write index is. -/
def copyLoop (buf : List Nat) (pos offset : Nat) : Nat → Except PyErr (List Nat × Nat)
  | 0 => .ok (buf, pos)
  | n + 1 =>
    match buf[pos - offset]? with
    | none => .error .index
    | some v =>
      match bufSet buf pos v with
      | .error e => .error e
      | .ok buf' => copyLoop buf' (pos + 1) offset n

/-- The main loop of `decompress_next` (source lines 144-213): `cursor` is the
payload cursor, `bits` the number of command bits still pending in `cmd`
(`bits = 0` re-checks the `while cursor < len(compressed_data)` condition and
reads a fresh command byte).  Returns the scratch buffer and write cursor on
normal exit (input exhausted or `offset == 0` sentinel).  The `fuel` argument
only bounds the unfolding; it decreases on every step and
`decompLoop_no_fuelOut` shows the fuel passed by `decompress_next` is never
exhausted. -/
def decompLoop (data : List Nat) : Nat → Nat → Nat → Nat → List Nat → Nat →
    Except PyErr (List Nat × Nat)
  | 0, _, _, _, _, _ => .error .fuelOut
  | fuel + 1, cursor, 0, _, buf, pos =>
    if h : cursor < data.length then
      decompLoop data fuel (cursor + 1) 8 (data.get ⟨cursor, h⟩) buf pos
    else
      .ok (buf, pos)
  | fuel + 1, cursor, bits + 1, cmd, buf, pos =>
    if (cmd &&& 0x80) ≠ 128 then
      -- literal: copy the next payload byte to the output cursor
      if h : cursor < data.length then
        match bufSet buf pos (data.get ⟨cursor, h⟩) with
        | .error e => .error e
        | .ok buf' => decompLoop data fuel (cursor + 1) bits (cmd <<< 1) buf' (pos + 1)
      else
        .error .index
    else
      -- back-reference token
      if h1 : cursor < data.length then
        if h2 : cursor + 1 < data.length then
          -- the token fields: `_1 = data[cursor]`, `_2 = data[cursor+1]`,
          -- `offset = ((_1 & 0xF0) << 4) + _2`
          if ((data.get ⟨cursor, h1⟩ &&& 0xF0) <<< 4) + data.get ⟨cursor + 1, h2⟩ = 0 then
            .ok (buf, pos)
          else if ((data.get ⟨cursor, h1⟩ &&& 0xF0) <<< 4) + data.get ⟨cursor + 1, h2⟩ > pos then
            .error (.bmp "Invalid compression offset")
          else
            if data.get ⟨cursor, h1⟩ &&& 0x0F = 0 then
              if h3 : cursor + 2 < data.length then
                match copyLoop buf pos
                    (((data.get ⟨cursor, h1⟩ &&& 0xF0) <<< 4) + data.get ⟨cursor + 1, h2⟩)
                    (data.get ⟨cursor + 2, h3⟩ + 18) with
                | .error e => .error e
                | .ok (buf', pos') =>
                  decompLoop data fuel (cursor + 3) bits (cmd <<< 1) buf' pos'
              else
                .error .index
            else
              match copyLoop buf pos
                  (((data.get ⟨cursor, h1⟩ &&& 0xF0) <<< 4) + data.get ⟨cursor + 1, h2⟩)
                  (18 - (data.get ⟨cursor, h1⟩ &&& 0x0F)) with
              | .error e => .error e
              | .ok (buf', pos') =>
                decompLoop data fuel (cursor + 2) bits (cmd <<< 1) buf' pos'
        else
          .error .index
      else
        .error .index

/-- `CustomBmpDumper.decompress_next(compressed_size)` (source lines 129-214):
read the payload, copy its first byte to the current write position, then run
the command-byte loop.  The final `self.decompress_pos = 0` in the source is
commented out, so the returned state keeps the write cursor where the loop
left it. -/
def decompress_next (s : DState) (compressedSize : Nat) : Except PyErr DState :=
  let r := readBytes s compressedSize
  let data := r.1
  let s1 := r.2
  match data[0]? with
  | none => .error .index
  | some v =>
    match bufSet s1.buf s1.pos v with
    | .error e => .error e
    | .ok buf0 =>
      match decompLoop data (9 * data.length + 10) 1 0 0 buf0 (s1.pos + 1) with
      | .error e => .error e
      | .ok (buf1, pos1) => .ok { s1 with buf := buf1, pos := pos1 }

/-- `CustomBmpDumper.next_data` (source lines 110-127): reset the consumption
cursor, read the 4-byte chunk descriptor (two little-endian u16 fields); on a
short read return silently.  A raw chunk (`decomp ≤ comp`) is checked against
the current buffer length and copied in via slice assignment
`buffer[:decomp] = read(decomp)` (which shrinks the buffer if the stream
supplies fewer than `decomp` bytes); otherwise `decompress_size` is set and
`decompress_next` runs on the payload. -/
def next_data (s : DState) : Except PyErr DState :=
  let s0 : DState := { s with pos := 0 }
  let r := readBytes s0 4
  match r.1 with
  | [a, b, c, d] =>
    let s1 := r.2
    let nextDecompSz := a + 256 * b
    let nextCompSz := c + 256 * d
    if nextDecompSz ≤ nextCompSz then
      if nextDecompSz > s1.buf.length then
        .error (.bmp "Decompress buffer overflow")
      else
        let r2 := readBytes s1 nextDecompSz
        .ok { r2.2 with size := nextDecompSz,
                        buf := r2.1 ++ s1.buf.drop nextDecompSz }
    else
      decompress_next { s1 with size := nextDecompSz } nextCompSz
  | _ => .ok r.2

/-- `align(value, alignment)` (source line 18-19) for the power-of-two
alignments used by the program (8 and 32): rounding up to a multiple.  For a
power of two `a`, `(v + a - 1) & ~(a - 1) = (v + a - 1) - (v + a - 1) % a`. -/
def align (value alignment : Nat) : Nat :=
  (value + alignment - 1) - (value + alignment - 1) % alignment

/-- Python slice assignment `l[a : b] = src` for `a ≤ b`: both indices are
clamped to the list length, the slice is removed and `src` spliced in (the
result length differs from the original when `src` is shorter or longer than
the slice). -/
def sliceAssign (l : List Nat) (a b : Nat) (src : List Nat) : List Nat :=
  l.take (min a l.length) ++ src ++ l.drop (min b l.length)

/-- Result of the scanline-filling loop: finished, a Python exception, or fuel
exhausted (`spin` carries the looping configuration; the `while` loop of
`write_data` genuinely does not terminate on some inputs). -/
inductive FillRes where
  | done (img : List Nat) (s : DState)
  | fail (e : PyErr)
  | spin (img : List Nat) (s : DState) (remaining offset : Nat)
  deriving DecidableEq

/-- The inner `while remaining > 0` loop of `write_data` (source lines
225-234): pull a chunk when the scratch buffer is exhausted, then copy
`min(remaining, size - pos)` bytes into the image at
`row_start + offset`. -/
def fillLoop (rowStart : Nat) : Nat → Nat → Nat → List Nat → DState → FillRes
  | fuel, remaining, offset, img, s =>
    if remaining = 0 then .done img s
    else
      match fuel with
      | 0 => .spin img s remaining offset
      | fuel + 1 =>
        match (if s.size ≤ s.pos then next_data s else .ok s : Except PyErr DState) with
        | .error e => .fail e
        | .ok s1 =>
          let chunk := min remaining (s1.size - s1.pos)
          if chunk > 0 then
            let src := (s1.buf.drop s1.pos).take chunk
            fillLoop rowStart fuel (remaining - chunk) (offset + chunk)
              (sliceAssign img (rowStart + offset) (rowStart + offset + chunk) src)
              { s1 with pos := s1.pos + chunk }
          else
            fillLoop rowStart fuel remaining offset img s1

/-- The outer `for y in range(height)` loop of `write_data` (source lines
221-234): with `rows` rows still to fill, the current row's destination
offset is `scan_line_len * (height - y - 1) = scanLineLen * (rows - 1)`.
Each row's `while` loop gets the same fuel bound. -/
def fillRows (scanLineLen fuel : Nat) : Nat → List Nat → DState → FillRes
  | 0, img, s => .done img s
  | rows + 1, img, s =>
    match fillLoop (scanLineLen * rows) fuel scanLineLen 0 img s with
    | .done img' s' => fillRows scanLineLen fuel rows img' s'
    | r => r

/-- The emission loop of `write_data` (source lines 236-239): for each `y`,
the packed row `image_data[y*scan_line_len : (y+1)*scan_line_len]` followed by
`padding` zero bytes. -/
def emitFrom (img : List Nat) (scanLineLen padding : Nat) : Nat → Nat → List Nat
  | _, 0 => []
  | y, rows + 1 =>
    (img.drop (y * scanLineLen)).take scanLineLen ++ List.replicate padding 0 ++
      emitFrom img scanLineLen padding (y + 1) rows

/-- `CustomBmpDumper.write_data` (source lines 216-239): fill
`image_data` (initially `scan_line_len * height` zero bytes) row by row in
bottom-up order, then emit each row padded with
`out_stride_in_bytes - scan_line_len` zeros, where
`scan_line_len = align(width * bits_per_pixel, 8) // 8` and
`out_stride_in_bytes = align(width * bits_per_pixel, 32) // 8` (computed in
`initialize`).  `none` means the fuel bound was exhausted, i.e. the source's
`while` loop did not terminate within `fuel` iterations. -/
def write_data (fuel width height bpp : Nat) (s : DState) :
    Option (Except PyErr (List Nat)) :=
  let scanLineLen := align (width * bpp) 8 / 8
  let img := List.replicate (scanLineLen * height) 0
  match fillRows scanLineLen fuel height img s with
  | .fail e => some (.error e)
  | .spin _ _ _ _ => none
  | .done img' _ =>
    let padding := align (width * bpp) 32 / 8 - scanLineLen
    some (.ok (emitFrom img' scanLineLen padding 0 height))

/-- Bounded helper for `goodChunks`: each parsed descriptor consumes at least
4 bytes, so fuel equal to the list length is always sufficient
(`goodChunksAux_fuel`). -/
def goodChunksAux : Nat → List Nat → Bool
  | 0, _ => true
  | fuel + 1, a :: b :: c :: d :: rest =>
    let decomp := a + 256 * b
    let comp := c + 256 * d
    if decomp ≤ comp then
      decide (decomp ≤ rest.length) && goodChunksAux fuel (rest.drop decomp)
    else
      decide (decomp ≤ 1500) && goodChunksAux fuel (rest.drop comp)
  | _ + 1, _ => true

/-- A well-supplied chunk stream: parsed sequentially from the front, every
raw chunk's declared payload is fully present, and every compressed chunk
declares a decompressed size within the 1500-byte scratch capacity.  (This is
the guard under which the assembler's buffer bookkeeping stays in range.) -/
def goodChunks (l : List Nat) : Bool :=
  goodChunksAux l.length l

/-- The initial decoder state for a given chunk stream: fresh 1500-byte
scratch buffer (`bytearray(BMP_DECOMPRESS_BUFFER_SIZE)`), `decompress_pos = 0`,
`decompress_size = 0`. -/
def initState (input : List Nat) : DState :=
  ⟨input, 0, List.replicate 1500 0, 0, 0⟩

/-- The compressed payload of the capacity-overflow counterexample: a first
literal `0x41`, one command byte `0xFF` (eight back-reference bits), and eight
3-byte tokens with `offset = 1` and `repeat_count = 255 + 18 = 273`, declaring
a total expansion of `1 + 8 * 273 = 2185` bytes. -/
def c4data : List Nat :=
  [65, 255, 0, 1, 255, 0, 1, 255, 0, 1, 255, 0, 1, 255, 0, 1, 255, 0, 1, 255, 0, 1, 255, 0, 1, 255]

/-- The full chunk: descriptor `decomp = 0x0888 = 2184`, `comp = 26`,
followed by the payload. -/
def c4input : List Nat := [136, 8, 26, 0] ++ c4data

/-- Initial decoder state for the overflow counterexample. -/
def c4state : DState := initState c4input

/-- The scratch buffer after the first literal byte of the payload. -/
def c4buf0 : List Nat := (List.replicate 1500 0).set 0 65

/-! ### Concrete decoder states used by the claim theorems -/

/-- A single compressed chunk: descriptor `decomp = 2 > comp = 1`, payload one
literal byte `0x41`. -/
def c1state : DState := initState [2, 0, 1, 0, 65]

/-- A decoder state whose stream holds only 2 bytes (no full descriptor),
with nonzero consumption cursor and size. -/
def c5state : DState := ⟨[9, 7], 0, List.replicate 1500 0, 5, 7⟩

/-- A compressed chunk declaring `decomp = 1501` (over capacity), `comp = 1`. -/
def c6over : DState := initState [221, 5, 1, 0, 65]

/-- A raw chunk declaring 10 bytes of which the stream supplies only 3. -/
def c6shrink : DState := initState [10, 0, 10, 0, 1, 2, 3]

/-- A raw chunk declaring `decomp = comp = 1500` of which the stream supplies
only 3 bytes: the slice assignment shrinks the scratch buffer to 3 bytes. -/
def c3state : DState := initState [220, 5, 220, 5, 1, 2, 3]

/-- A compressed chunk with an empty payload (`decomp = 1 > comp = 0`). -/
def c10empty : DState := initState [1, 0, 0, 0]

/-- A compressed chunk whose payload ends in the middle of a command group:
first literal `0x41`, command byte `0x00`, then nothing. -/
def c10mid : DState := initState [3, 0, 2, 0, 65, 0]


/-! ### Lemmas about the back-reference copy loop -/

/-- Full characterisation of a successful copy: with `0 < offset ≤ pos` and
room for `n` bytes, the loop succeeds, advances the cursor by `n`, leaves all
other entries alone, and every written byte equals the byte `offset` places
before it in the *final* buffer (the self-overlapping, byte-by-byte
semantics). -/
theorem copyLoop_spec (n : Nat) : ∀ (buf : List Nat) (pos offset : Nat),
    0 < offset → offset ≤ pos → pos + n ≤ buf.length →
    ∃ buf', copyLoop buf pos offset n = .ok (buf', pos + n) ∧
      buf'.length = buf.length ∧
      (∀ j, j < pos → buf'[j]? = buf[j]?) ∧
      (∀ j, pos + n ≤ j → buf'[j]? = buf[j]?) ∧
      (∀ i, i < n → buf'[pos + i]? = buf'[pos + i - offset]?) := by
  induction n with
  | zero =>
    intro buf pos offset _ _ _
    exact ⟨buf, by simp [copyLoop], rfl, fun j _ => rfl, fun j _ => rfl, by omega⟩
  | succ n ih =>
    intro buf pos offset hoff hople hroom
    have hpos : pos < buf.length := by omega
    have hread : pos - offset < buf.length := by omega
    have hget : buf[pos - offset]? = some buf[pos - offset] :=
      List.getElem?_eq_getElem hread
    set v := buf[pos - offset] with hv
    have hset : bufSet buf pos v = .ok (buf.set pos v) := by
      simp [bufSet, hpos]
    have hlen1 : (buf.set pos v).length = buf.length := by simp
    obtain ⟨buf', hrun, hlen, hpre, hpost, hself⟩ :=
      ih (buf.set pos v) (pos + 1) offset hoff (by omega) (by omega)
    refine ⟨buf', ?_, by omega, ?_, ?_, ?_⟩
    · have : copyLoop buf pos offset (n + 1) =
        copyLoop (buf.set pos v) (pos + 1) offset n := by
        simp [copyLoop, hget, hset]
      rw [this, hrun]
      have : pos + 1 + n = pos + (n + 1) := by omega
      rw [this]
    · intro j hj
      rw [hpre j (by omega)]
      exact List.getElem?_set_ne (by omega)
    · intro j hj
      rw [hpost j (by omega)]
      exact List.getElem?_set_ne (by omega)
    · intro i hi
      match i with
      | 0 =>
        have h1 : buf'[pos + 0]? = some v := by
          rw [show pos + 0 = pos from rfl, hpre pos (by omega)]
          exact List.getElem?_set_self hpos
        have h2 : buf'[pos + 0 - offset]? = some v := by
          rw [show pos + 0 - offset = pos - offset from rfl,
            hpre (pos - offset) (by omega), List.getElem?_set_ne (by omega), hget]
        rw [h1, h2]
      | i + 1 =>
        have e1 : pos + (i + 1) = pos + 1 + i := by omega
        have e2 : pos + 1 + i - offset = pos + (i + 1) - offset := by omega
        rw [e1, hself i (by omega), e2]

/-- A successful copy never changes the buffer's length, never moves the
cursor backwards, and keeps an in-range cursor in range. -/
theorem copyLoop_ok_inv (n : Nat) : ∀ (buf : List Nat) (pos offset : Nat)
    (buf' : List Nat) (pos' : Nat),
    copyLoop buf pos offset n = .ok (buf', pos') →
    buf'.length = buf.length ∧ pos ≤ pos' ∧
      (pos ≤ buf.length → pos' ≤ buf.length) := by
  induction n with
  | zero =>
    intro buf pos offset buf' pos' h
    simp [copyLoop] at h
    obtain ⟨h1, h2⟩ := h
    subst h1; subst h2
    exact ⟨rfl, le_refl _, fun h => h⟩
  | succ n ih =>
    intro buf pos offset buf' pos' h
    match hget : buf[pos - offset]? with
    | none => simp [copyLoop, hget] at h
    | some v =>
      by_cases hpos : pos < buf.length
      · have hset : bufSet buf pos v = .ok (buf.set pos v) := by simp [bufSet, hpos]
        have hstep : copyLoop buf pos offset (n + 1) =
            copyLoop (buf.set pos v) (pos + 1) offset n := by
          simp [copyLoop, hget, hset]
        rw [hstep] at h
        obtain ⟨h1, h2, h3⟩ := ih (buf.set pos v) (pos + 1) offset buf' pos' h
        refine ⟨by simpa using h1, by omega, fun _ => ?_⟩
        have := h3 (by simp; omega)
        simpa using this
      · have hset : bufSet buf pos v = .error .index := by simp [bufSet, hpos]
        simp [copyLoop, hget, hset] at h

/-- If the loop still has bytes to write when the cursor reaches the end of
the buffer, the write raises `IndexError` (there is no explicit capacity
check in the source). -/
theorem copyLoop_overflow (n : Nat) : ∀ (buf : List Nat) (pos offset : Nat),
    0 < offset → offset ≤ pos → pos ≤ buf.length → buf.length < pos + n →
    copyLoop buf pos offset n = .error .index := by
  induction n with
  | zero => intro buf pos offset _ _ _ _; omega
  | succ n ih =>
    intro buf pos offset hoff hople hle hover
    have hread : pos - offset < buf.length := by omega
    have hget : buf[pos - offset]? = some buf[pos - offset] :=
      List.getElem?_eq_getElem hread
    by_cases hpos : pos < buf.length
    · have hset : bufSet buf pos buf[pos - offset] = .ok (buf.set pos buf[pos - offset]) := by
        simp [bufSet, hpos]
      have hstep : copyLoop buf pos offset (n + 1) =
          copyLoop (buf.set pos buf[pos - offset]) (pos + 1) offset n := by
        simp [copyLoop, hget, hset]
      rw [hstep]
      exact ih _ (pos + 1) offset hoff (by omega) (by simpa using hpos) (by simp; omega)
    · have hset : bufSet buf pos buf[pos - offset] = .error .index := by simp [bufSet, hpos]
      simp [copyLoop, hget, hset]

/-- Inversion for a successful buffer write. -/
theorem bufSet_ok {l : List Nat} {i v : Nat} {l' : List Nat}
    (h : bufSet l i v = .ok l') : i < l.length ∧ l' = l.set i v := by
  unfold bufSet at h
  split at h
  · exact ⟨by assumption, by cases h; rfl⟩
  · cases h

/-- The only error the write can raise is `IndexError`. -/
theorem bufSet_error {l : List Nat} {i v : Nat} {e : PyErr}
    (h : bufSet l i v = .error e) : e = .index := by
  unfold bufSet at h
  split at h
  · cases h
  · cases h; rfl

/-- The only error the copy loop can raise is `IndexError`. -/
theorem copyLoop_error (n : Nat) : ∀ (buf : List Nat) (pos offset : Nat) (e : PyErr),
    copyLoop buf pos offset n = .error e → e = .index := by
  induction n with
  | zero => intro buf pos offset e h; simp [copyLoop] at h
  | succ n ih =>
    intro buf pos offset e h
    match hget : buf[pos - offset]? with
    | none =>
      simp [copyLoop, hget] at h
      exact h.symm
    | some v =>
      match hset : bufSet buf pos v with
      | .error e' =>
        have : e = e' := by simp [copyLoop, hget, hset] at h; exact h.symm
        rw [this]; exact bufSet_error hset
      | .ok buf1 =>
        have hstep : copyLoop buf pos offset (n + 1) = copyLoop buf1 (pos + 1) offset n := by
          simp [copyLoop, hget, hset]
        rw [hstep] at h
        exact ih buf1 (pos + 1) offset e h

/-- A normally-terminating run of the command-byte loop never changes the
buffer's length, and keeps an in-range write cursor in range. -/
theorem decompLoop_ok_inv (data : List Nat) (fuel : Nat) :
    ∀ (cursor bits cmd : Nat) (buf : List Nat) (pos : Nat)
      (buf' : List Nat) (pos' : Nat),
    decompLoop data fuel cursor bits cmd buf pos = .ok (buf', pos') →
    buf'.length = buf.length ∧ (pos ≤ buf.length → pos' ≤ buf.length) := by
  induction fuel with
  | zero =>
    intro cursor bits cmd buf pos buf' pos' h
    simp [decompLoop] at h
  | succ fuel ih =>
    intro cursor bits cmd buf pos buf' pos' h
    match bits with
    | 0 =>
      rw [decompLoop] at h
      split at h
      · exact ih _ _ _ _ _ _ _ h
      · cases h
        exact ⟨rfl, fun hh => hh⟩
    | bits + 1 =>
      rw [decompLoop] at h
      split at h
      · -- literal bit
        split at h
        · match hset : bufSet buf pos (data.get ⟨cursor, by assumption⟩) with
          | .error e => rw [hset] at h; cases h
          | .ok buf1 =>
            rw [hset] at h
            obtain ⟨hpos, hbuf1⟩ := bufSet_ok hset
            obtain ⟨h1, h2⟩ := ih _ _ _ _ _ _ _ h
            subst hbuf1
            refine ⟨by simpa using h1, fun _ => ?_⟩
            have := h2 (by simp; omega)
            simpa using this
        · cases h
      · -- back-reference bit
        split at h
        case isTrue h1 =>
          split at h
          case isTrue h2 =>
            split at h
            · -- offset = 0 sentinel
              cases h
              exact ⟨rfl, fun hh => hh⟩
            · split at h
              · cases h
              · -- genuine back-reference
                split at h
                · split at h
                  case isTrue h3 =>
                    match hcl : copyLoop buf pos
                        (((data.get ⟨cursor, h1⟩ &&& 240) <<< 4) + data.get ⟨cursor + 1, h2⟩)
                        (data.get ⟨cursor + 2, h3⟩ + 18) with
                    | .error e => rw [hcl] at h; cases h
                    | .ok (buf1, pos1) =>
                      rw [hcl] at h
                      obtain ⟨hc1, _, hc3⟩ := copyLoop_ok_inv _ _ _ _ _ _ hcl
                      obtain ⟨h1', h2'⟩ := ih _ _ _ _ _ _ _ h
                      refine ⟨by omega, fun hp => ?_⟩
                      have := h2' (by omega)
                      omega
                  case isFalse h3 => cases h
                · match hcl : copyLoop buf pos
                      (((data.get ⟨cursor, h1⟩ &&& 240) <<< 4) + data.get ⟨cursor + 1, h2⟩)
                      (18 - (data.get ⟨cursor, h1⟩ &&& 15)) with
                  | .error e => rw [hcl] at h; cases h
                  | .ok (buf1, pos1) =>
                    rw [hcl] at h
                    obtain ⟨hc1, _, hc3⟩ := copyLoop_ok_inv _ _ _ _ _ _ hcl
                    obtain ⟨h1', h2'⟩ := ih _ _ _ _ _ _ _ h
                    refine ⟨by omega, fun hp => ?_⟩
                    have := h2' (by omega)
                    omega
          case isFalse h2 => cases h
        case isFalse h1 => cases h

/-- The fuel bound is never the reason the loop stops: every step consumes at
least one payload byte per 9 fuel units, so fuel exceeding
`9 * (remaining payload) + pending bits` suffices.  In particular the fuel
`9 * data.length + 10` supplied by `decompress_next` is always enough. -/
theorem decompLoop_no_fuelOut (data : List Nat) (fuel : Nat) :
    ∀ (cursor bits cmd : Nat) (buf : List Nat) (pos : Nat),
    9 * (data.length - cursor) + bits < fuel →
    decompLoop data fuel cursor bits cmd buf pos ≠ .error .fuelOut := by
  induction fuel with
  | zero => intro cursor bits cmd buf pos h; omega
  | succ fuel ih =>
    intro cursor bits cmd buf pos hfuel
    match bits with
    | 0 =>
      rw [decompLoop]
      split
      case isTrue hc => exact ih _ _ _ _ _ (by omega)
      case isFalse hc => simp
    | bits + 1 =>
      rw [decompLoop]
      split
      · -- literal bit
        split
        case isTrue hc =>
          match hset : bufSet buf pos (data.get ⟨cursor, hc⟩) with
          | .error e =>
            have : e = .index := bufSet_error hset
            subst this
            simp
          | .ok buf1 => exact ih _ _ _ _ _ (by omega)
        case isFalse hc => simp
      · -- back-reference bit
        split
        case isFalse h1 => simp
        case isTrue h1 =>
          split
          case isFalse h2 => simp
          case isTrue h2 =>
            split
            · simp
            · split
              · simp
              · split
                · split
                  case isTrue h3 =>
                    match hcl : copyLoop buf pos
                        (((data.get ⟨cursor, h1⟩ &&& 0xF0) <<< 4) + data.get ⟨cursor + 1, h2⟩)
                        (data.get ⟨cursor + 2, h3⟩ + 18) with
                    | .error e =>
                      have : e = .index := copyLoop_error _ _ _ _ _ hcl
                      subst this
                      simp
                    | .ok (buf1, pos1) => exact ih _ _ _ _ _ (by omega)
                  case isFalse h3 => simp
                · match hcl : copyLoop buf pos
                      (((data.get ⟨cursor, h1⟩ &&& 0xF0) <<< 4) + data.get ⟨cursor + 1, h2⟩)
                      (18 - (data.get ⟨cursor, h1⟩ &&& 0x0F)) with
                  | .error e =>
                    have : e = .index := copyLoop_error _ _ _ _ _ hcl
                    subst this
                    simp
                  | .ok (buf1, pos1) => exact ih _ _ _ _ _ (by omega)

/-- Raw-chunk behaviour of `next_data`: when the descriptor declares
`decomp ≤ comp`, the declared size fits the buffer and the payload is fully
available, the next `decomp` stream bytes land at the start of the scratch
buffer, `size` is set to the declared size, and the consumption cursor is 0. -/
theorem next_data_raw_spec (s : DState) (a b c d : Nat) (rest : List Nat)
    (hrem : s.input.drop s.inputPos = a :: b :: c :: d :: rest)
    (hraw : a + 256 * b ≤ c + 256 * d)
    (hcap : a + 256 * b ≤ s.buf.length)
    (hsup : a + 256 * b ≤ rest.length) :
    next_data s = .ok ⟨s.input, s.inputPos + 4 + (a + 256 * b),
      rest.take (a + 256 * b) ++ s.buf.drop (a + 256 * b), 0, a + 256 * b⟩ := by
  have h4 : (s.input.drop s.inputPos).take 4 = [a, b, c, d] := by
    rw [hrem]; rfl
  have hdrop4 : s.input.drop (s.inputPos + 4) = rest := by
    have h := List.drop_drop 4 s.inputPos s.input
    rw [hrem] at h
    simpa using h.symm
  have htklen : (rest.take (a + 256 * b)).length = a + 256 * b :=
    List.length_take_of_le hsup
  simp only [next_data, readBytes, h4]
  simp only [List.length_cons, List.length_nil]
  rw [if_pos hraw, if_neg (by simp; omega)]
  simp only [hdrop4, htklen]

/-- Short-descriptor behaviour of `next_data`: with fewer than 4 bytes left in
the stream, the function returns successfully (the source's `return` on a
short header), having only reset the consumption cursor to 0 and consumed
whatever bytes remained; `decompress_size` and the buffer are untouched and
no error is raised. -/
theorem next_data_short (s : DState)
    (hshort : (s.input.drop s.inputPos).length < 4) :
    next_data s = .ok ⟨s.input, s.inputPos + (s.input.drop s.inputPos).length,
      s.buf, 0, s.size⟩ := by
  match hrem : s.input.drop s.inputPos with
  | [] => simp [next_data, readBytes, hrem]
  | [a] => simp [next_data, readBytes, hrem]
  | [a, b] => simp [next_data, readBytes, hrem]
  | [a, b, c] => simp [next_data, readBytes, hrem]
  | a :: b :: c :: d :: rest =>
    rw [hrem] at hshort
    simp at hshort
    omega

/-- Any fuel accepts the empty stream. -/
theorem goodChunksAux_nil (fuel : Nat) : goodChunksAux fuel [] = true := by
  cases fuel <;> rfl

/-- Fuel irrelevance for the chunk-stream validator: any fuel at least the
list length computes the same answer. -/
theorem goodChunksAux_fuel (fuel : Nat) : ∀ (fuel' : Nat) (l : List Nat),
    l.length ≤ fuel → l.length ≤ fuel' →
    goodChunksAux fuel l = goodChunksAux fuel' l := by
  induction fuel with
  | zero =>
    intro fuel' l h h'
    have : l = [] := List.eq_nil_of_length_eq_zero (by omega)
    subst this
    rw [goodChunksAux_nil, goodChunksAux_nil]
  | succ fuel ih =>
    intro fuel' l h h'
    match l with
    | [] => rw [goodChunksAux_nil, goodChunksAux_nil]
    | [a] => cases fuel' with | zero => simp at h' | succ f => rfl
    | [a, b] => cases fuel' with | zero => simp at h' | succ f => rfl
    | [a, b, c] => cases fuel' with | zero => simp at h' | succ f => rfl
    | a :: b :: c :: d :: rest =>
      cases fuel' with
      | zero => simp at h'
      | succ fuel'' =>
        simp only [goodChunksAux]
        split
        · have e := ih fuel'' (rest.drop (a + 256 * b))
            (by simp [List.length_drop] at *; omega)
            (by simp [List.length_drop] at *; omega)
          rw [e]
        · have e := ih fuel'' (rest.drop (c + 256 * d))
            (by simp [List.length_drop] at *; omega)
            (by simp [List.length_drop] at *; omega)
          rw [e]

/-- One-step unfolding of the validator on a full descriptor. -/
theorem goodChunks_cons (a b c d : Nat) (rest : List Nat) :
    goodChunks (a :: b :: c :: d :: rest) =
      (if a + 256 * b ≤ c + 256 * d then
        decide (a + 256 * b ≤ rest.length) && goodChunks (rest.drop (a + 256 * b))
      else
        decide (a + 256 * b ≤ 1500) && goodChunks (rest.drop (c + 256 * d))) := by
  show goodChunksAux (a :: b :: c :: d :: rest).length _ = _
  have hl : (a :: b :: c :: d :: rest).length = rest.length + 4 := by
    simp [List.length_cons]
  rw [hl]
  simp only [goodChunksAux, goodChunks]
  split
  · rw [goodChunksAux_fuel (rest.length + 3) (rest.drop (a + 256 * b)).length _
      (by simp [List.length_drop]; omega) (by omega)]
  · rw [goodChunksAux_fuel (rest.length + 3) (rest.drop (c + 256 * d)).length _
      (by simp [List.length_drop]; omega) (by omega)]

/-- Stream bytes remaining after a successful `next_data` on a well-supplied
stream, together with the preserved invariants: the buffer keeps length 1500,
`decompress_size` stays within 1500, the rest of the stream is still
well-supplied, and the stream itself is unchanged. -/
theorem next_data_inv (s s' : DState)
    (hlen : s.buf.length = 1500) (hsz : s.size ≤ 1500)
    (hgood : goodChunks (s.input.drop s.inputPos) = true)
    (h : next_data s = .ok s') :
    s'.buf.length = 1500 ∧ s'.size ≤ 1500 ∧
      goodChunks (s'.input.drop s'.inputPos) = true ∧ s'.input = s.input := by
  by_cases hshort : (s.input.drop s.inputPos).length < 4
  · rw [next_data_short s hshort] at h
    cases h
    refine ⟨hlen, hsz, ?_, rfl⟩
    have : s.input.drop (s.inputPos + (s.input.drop s.inputPos).length) = [] := by
      have hd := List.drop_drop (s.input.drop s.inputPos).length s.inputPos s.input
      rw [← hd, List.drop_length]
    simp only [this]
    exact goodChunksAux_nil _
  · -- a full 4-byte descriptor is available
    match hrem : s.input.drop s.inputPos with
    | [] | [a] | [a, b] | [a, b, c] => rw [hrem] at hshort; simp at hshort
    | a :: b :: c :: d :: rest =>
      rw [hrem, goodChunks_cons] at hgood
      have hdrop4 : s.input.drop (s.inputPos + 4) = rest := by
        have hd := List.drop_drop 4 s.inputPos s.input
        rw [hrem] at hd
        simpa using hd.symm
      by_cases hraw : a + 256 * b ≤ c + 256 * d
      · -- raw chunk
        rw [if_pos hraw] at hgood
        simp only [Bool.and_eq_true, decide_eq_true_eq] at hgood
        obtain ⟨hsup, hrest⟩ := hgood
        by_cases hov : a + 256 * b > s.buf.length
        · have herr : next_data s = .error (.bmp "Decompress buffer overflow") := by
            have h4 : (s.input.drop s.inputPos).take 4 = [a, b, c, d] := by
              rw [hrem]; rfl
            simp only [next_data, readBytes, h4]
            rw [if_pos hraw, if_pos hov]
          rw [herr] at h
          cases h
        rw [next_data_raw_spec s a b c d rest hrem hraw (by omega) hsup] at h
        cases h
        refine ⟨?_, by simp; omega, ?_, rfl⟩
        · simp [List.length_append, List.length_take_of_le hsup, List.length_drop]
          omega
        · have : s.input.drop (s.inputPos + 4 + (a + 256 * b)) =
              rest.drop (a + 256 * b) := by
            have hd := List.drop_drop (a + 256 * b) (s.inputPos + 4) s.input
            rw [hdrop4] at hd
            exact hd.symm
          simpa [this] using hrest
      · -- compressed chunk
        rw [if_neg hraw] at hgood
        simp only [Bool.and_eq_true, decide_eq_true_eq] at hgood
        obtain ⟨hcap, hrest⟩ := hgood
        have hstep : next_data s =
            decompress_next ⟨s.input, s.inputPos + 4, s.buf, 0, a + 256 * b⟩
              (c + 256 * d) := by
          have h4 : (s.input.drop s.inputPos).take 4 = [a, b, c, d] := by
            rw [hrem]; rfl
          simp only [next_data, readBytes, h4]
          rw [if_neg hraw]
          simp [List.length_cons]
        rw [hstep] at h
        simp only [decompress_next, readBytes] at h
        simp only [hdrop4] at h
        match hfirst : (rest.take (c + 256 * d))[0]? with
        | none => simp only [hfirst] at h; cases h
        | some v =>
          simp only [hfirst] at h
          match hset : bufSet s.buf 0 v with
          | .error e => simp only [hset] at h; cases h
          | .ok buf0 =>
            simp only [hset] at h
            obtain ⟨_, hbuf0⟩ := bufSet_ok hset
            match hloop : decompLoop (rest.take (c + 256 * d))
                (9 * (rest.take (c + 256 * d)).length + 10) 1 0 0 buf0 (0 + 1) with
            | .error e => simp only [hloop] at h; cases h
            | .ok (buf1, pos1) =>
              simp only [hloop] at h
              cases h
              obtain ⟨hl1, _⟩ := decompLoop_ok_inv _ _ _ _ _ _ _ _ _ hloop
              refine ⟨?_, by simp; omega, ?_, rfl⟩
              · rw [hl1, hbuf0]; simpa using hlen
              · have hdropc : s.input.drop
                    (s.inputPos + 4 + min (c + 256 * d) rest.length) =
                    rest.drop (c + 256 * d) := by
                  have hd := List.drop_drop (min (c + 256 * d) rest.length)
                    (s.inputPos + 4) s.input
                  rw [hdrop4] at hd
                  rw [← hd]
                  by_cases hc : c + 256 * d ≤ rest.length
                  · rw [Nat.min_eq_left hc]
                  · rw [Nat.min_eq_right (by omega)]
                    rw [List.drop_length, List.drop_eq_nil_of_le (by omega)]
                simpa [List.length_take, hdropc] using hrest

/-- An in-range, fully-supplied slice assignment preserves the list length. -/
theorem sliceAssign_length (l : List Nat) (a k : Nat) (src : List Nat)
    (hrange : a + k ≤ l.length) (hsrc : src.length = k) :
    (sliceAssign l a (a + k) src).length = l.length := by
  unfold sliceAssign
  simp [List.length_append, List.length_take, List.length_drop]
  omega

/-- The row-filling loop invariant: on a well-supplied stream with the
standard scratch-buffer invariant, a row fill that terminates normally never
changes the staged image's length, and re-establishes the invariant. -/
theorem fillLoop_inv (fuel : Nat) : ∀ (rowStart remaining offset : Nat)
    (img : List Nat) (s : DState) (img' : List Nat) (s' : DState),
    s.buf.length = 1500 → s.size ≤ 1500 →
    goodChunks (s.input.drop s.inputPos) = true →
    rowStart + offset + remaining ≤ img.length →
    fillLoop rowStart fuel remaining offset img s = .done img' s' →
    img'.length = img.length ∧ s'.buf.length = 1500 ∧ s'.size ≤ 1500 ∧
      goodChunks (s'.input.drop s'.inputPos) = true := by
  induction fuel with
  | zero =>
    intro rowStart remaining offset img s img' s' h1 h2 h3 h4 h
    rw [fillLoop] at h
    split at h
    · cases h; exact ⟨rfl, h1, h2, h3⟩
    · cases h
  | succ fuel ih =>
    intro rowStart remaining offset img s img' s' h1 h2 h3 h4 h
    rw [fillLoop] at h
    split at h
    · cases h; exact ⟨rfl, h1, h2, h3⟩
    · -- remaining > 0: one loop iteration
      rename_i hrem0
      have hstep : ∀ (s1 : DState),
          (if s.size ≤ s.pos then next_data s else .ok s) = .ok s1 →
          s1.buf.length = 1500 ∧ s1.size ≤ 1500 ∧
            goodChunks (s1.input.drop s1.inputPos) = true := by
        intro s1 hh
        by_cases hp : s.size ≤ s.pos
        · rw [if_pos hp] at hh
          obtain ⟨a1, a2, a3, _⟩ := next_data_inv s s1 h1 h2 h3 hh
          exact ⟨a1, a2, a3⟩
        · rw [if_neg hp] at hh
          cases hh
          exact ⟨h1, h2, h3⟩
      match hpull : (if s.size ≤ s.pos then next_data s else .ok s :
          Except PyErr DState) with
      | .error e => simp only [hpull] at h; cases h
      | .ok s1 =>
        simp only [hpull] at h
        obtain ⟨g1, g2, g3⟩ := hstep s1 hpull
        by_cases hchunk : min remaining (s1.size - s1.pos) > 0
        · rw [if_pos hchunk] at h
          have hc1 : min remaining (s1.size - s1.pos) ≤ remaining := Nat.min_le_left _ _
          have hsrc : ((s1.buf.drop s1.pos).take
              (min remaining (s1.size - s1.pos))).length =
              min remaining (s1.size - s1.pos) := by
            have : s1.pos < s1.size := by omega
            simp [List.length_take, List.length_drop]
            omega
          have himg1 : (sliceAssign img (rowStart + offset)
              (rowStart + offset + min remaining (s1.size - s1.pos))
              ((s1.buf.drop s1.pos).take (min remaining (s1.size - s1.pos)))).length =
              img.length :=
            sliceAssign_length img (rowStart + offset) _ _ (by omega) hsrc
          obtain ⟨i1, i2, i3, i4⟩ := ih rowStart
            (remaining - min remaining (s1.size - s1.pos))
            (offset + min remaining (s1.size - s1.pos))
            (sliceAssign img (rowStart + offset)
              (rowStart + offset + min remaining (s1.size - s1.pos))
              ((s1.buf.drop s1.pos).take (min remaining (s1.size - s1.pos))))
            { s1 with pos := s1.pos + min remaining (s1.size - s1.pos) }
            img' s' g1 g2 g3 (by rw [himg1]; omega) h
          exact ⟨by omega, i2, i3, i4⟩
        · rw [if_neg hchunk] at h
          exact ih rowStart remaining offset img s1 img' s' g1 g2 g3 (by omega) h

/-- Row-loop invariant lifted over all remaining rows. -/
theorem fillRows_inv (scanLineLen fuel : Nat) : ∀ (rows : Nat)
    (img : List Nat) (s : DState) (img' : List Nat) (s' : DState),
    s.buf.length = 1500 → s.size ≤ 1500 →
    goodChunks (s.input.drop s.inputPos) = true →
    scanLineLen * rows ≤ img.length →
    fillRows scanLineLen fuel rows img s = .done img' s' →
    img'.length = img.length := by
  intro rows
  induction rows with
  | zero =>
    intro img s img' s' _ _ _ _ h
    simp [fillRows] at h
    rw [h.1]
  | succ rows ih =>
    intro img s img' s' h1 h2 h3 h4 h
    rw [fillRows] at h
    match hrow : fillLoop (scanLineLen * rows) fuel scanLineLen 0 img s with
    | .fail e => simp only [hrow] at h; cases h
    | .spin i t r o => simp only [hrow] at h; cases h
    | .done img1 s1 =>
      simp only [hrow] at h
      obtain ⟨j1, j2, j3, j4⟩ := fillLoop_inv fuel (scanLineLen * rows)
        scanLineLen 0 img s img1 s1 h1 h2 h3
        (by have := Nat.mul_le_mul_left scanLineLen (Nat.le_refl (rows + 1)); nlinarith
          [Nat.mul_succ scanLineLen rows]) hrow
      have := ih img1 s1 img' s' j2 j3 j4 (by rw [j1]; nlinarith [Nat.mul_succ scanLineLen rows]) h
      omega

/-- Length of the emission phase: when the staged image holds at least
`(y + rows) * scanLineLen` bytes, every emitted row is a full
`scanLineLen + padding` bytes. -/
theorem emitFrom_length (img : List Nat) (scanLineLen padding : Nat) :
    ∀ (rows y : Nat), (y + rows) * scanLineLen ≤ img.length →
    (emitFrom img scanLineLen padding y rows).length = rows * (scanLineLen + padding) := by
  intro rows
  induction rows with
  | zero => intro y _; simp [emitFrom]
  | succ rows ih =>
    intro y hlen
    have hih : (y + 1 + rows) * scanLineLen ≤ img.length := by
      have e : y + 1 + rows = y + (rows + 1) := by omega
      rw [e]; exact hlen
    have h1 : (y + 1) * scanLineLen ≤ img.length :=
      le_trans (Nat.mul_le_mul_right _ (by omega)) hlen
    have e1 : (y + 1) * scanLineLen = y * scanLineLen + scanLineLen := by ring
    rw [emitFrom]
    simp only [List.length_append, List.length_take, List.length_drop,
      List.length_replicate]
    rw [ih (y + 1) hih]
    have hmin : min scanLineLen (img.length - y * scanLineLen) = scanLineLen := by omega
    rw [hmin]
    ring

/-- `align` as rounding up to a multiple: the packed row width never exceeds
the 32-bit-aligned stride. -/
theorem scanLineLen_le_stride (v : Nat) : align v 8 / 8 ≤ align v 32 / 8 := by
  have h8 : align v 8 = 8 * ((v + 7) / 8) := by
    unfold align
    have := Nat.div_add_mod (v + 7) 8
    omega
  have h32 : align v 32 = 32 * ((v + 31) / 32) := by
    unfold align
    have := Nat.div_add_mod (v + 31) 32
    omega
  rw [h8, h32]
  rw [Nat.mul_div_cancel_left _ (by omega : 0 < 8)]
  have e1 : (32 : Nat) * ((v + 31) / 32) = 8 * (4 * ((v + 31) / 32)) := by ring
  rw [e1, Nat.mul_div_cancel_left _ (by omega : 0 < 8)]
  have q8 := Nat.div_add_mod (v + 7) 8
  have q32 := Nat.div_add_mod (v + 31) 32
  have m8 : (v + 7) % 8 < 8 := Nat.mod_lt _ (by omega)
  have m32 : (v + 31) % 32 < 32 := Nat.mod_lt _ (by omega)
  omega

/-- Output-length theorem for the assembler under the well-supplied guard:
any successful `write_data` emits exactly `stride * height` bytes, where
`stride = align(width * bits_per_pixel, 32) / 8`. -/
theorem write_data_length (fuel width height bpp : Nat) (s : DState) (out : List Nat)
    (h1 : s.buf.length = 1500) (h2 : s.size ≤ 1500)
    (h3 : goodChunks (s.input.drop s.inputPos) = true)
    (hrun : write_data fuel width height bpp s = some (.ok out)) :
    out.length = (align (width * bpp) 32 / 8) * height := by
  simp only [write_data] at hrun
  match hfill : fillRows (align (width * bpp) 8 / 8) fuel height
      (List.replicate (align (width * bpp) 8 / 8 * height) 0) s with
  | .fail e => rw [hfill] at hrun; cases hrun
  | .spin i t r o => rw [hfill] at hrun; cases hrun
  | .done img1 s1 =>
    rw [hfill] at hrun
    have himg1 : img1.length = align (width * bpp) 8 / 8 * height :=
      (fillRows_inv _ fuel height _ s img1 s1 h1 h2 h3
        (by simp [List.length_replicate]) hfill).trans
        (by simp [List.length_replicate])
    cases hrun
    rw [emitFrom_length img1 _ _ height 0 (by rw [himg1]; simp [Nat.mul_comm])]
    have hle := scanLineLen_le_stride (width * bpp)
    have : align (width * bpp) 8 / 8 +
        (align (width * bpp) 32 / 8 - align (width * bpp) 8 / 8) =
        align (width * bpp) 32 / 8 := by omega
    rw [this, Nat.mul_comm]

/-- Dispatch of `next_data` on a compressed descriptor (`decomp > comp`):
the payload is handed to `decompress_next` with `decompress_size` already set
to the declared decompressed size. -/
theorem next_data_compressed (s : DState) (a b c d : Nat) (rest : List Nat)
    (hrem : s.input.drop s.inputPos = a :: b :: c :: d :: rest)
    (hcomp : ¬(a + 256 * b ≤ c + 256 * d)) :
    next_data s =
      decompress_next ⟨s.input, s.inputPos + 4, s.buf, 0, a + 256 * b⟩
        (c + 256 * d) := by
  have h4 : (s.input.drop s.inputPos).take 4 = [a, b, c, d] := by rw [hrem]; rfl
  simp only [next_data, readBytes, h4]
  rw [if_neg hcomp]
  simp [List.length_cons]

/-- One-step unfolding of `decompress_next` given the payload, its first byte
and the first successful write. -/
theorem decompress_next_eq (input : List Nat) (inputPos : Nat) (buf : List Nat)
    (bufPos size n : Nat) (data : List Nat) (v : Nat) (buf0 : List Nat)
    (hdata : (input.drop inputPos).take n = data)
    (h0 : data[0]? = some v)
    (hset : bufSet buf bufPos v = .ok buf0) :
    decompress_next ⟨input, inputPos, buf, bufPos, size⟩ n =
      (match decompLoop data (9 * data.length + 10) 1 0 0 buf0 (bufPos + 1) with
      | .error e => .error e
      | .ok (buf1, pos1) => .ok ⟨input, inputPos + data.length, buf1, pos1, size⟩) := by
  simp only [decompress_next, readBytes, hdata, h0, hset]

/-- Command-byte read step of the loop on the counterexample payload. -/
theorem c4_cmd (fuel cursor cmd pos v : Nat) (buf : List Nat)
    (hb : c4data[cursor]? = some v) :
    decompLoop c4data (fuel + 1) cursor 0 cmd buf pos =
      decompLoop c4data fuel (cursor + 1) 8 v buf pos := by
  obtain ⟨h1, hv⟩ := List.getElem?_eq_some_iff.mp hb
  have hg : c4data.get ⟨cursor, h1⟩ = v := by rw [List.get_eq_getElem]; exact hv
  rw [decompLoop, dif_pos h1, hg]

/-- A back-reference token of the counterexample payload that still fits:
it expands 273 bytes and hands the loop the next token. -/
theorem c4_token (fuel cursor bits cmd pos : Nat) (buf : List Nat)
    (hlen : buf.length = 1500) (hcmd : cmd &&& 0x80 = 128)
    (hb1 : c4data[cursor]? = some 0) (hb2 : c4data[cursor + 1]? = some 1)
    (hb3 : c4data[cursor + 2]? = some 255)
    (hpos : 1 ≤ pos) (hroom : pos + 273 ≤ 1500) :
    ∃ buf', decompLoop c4data (fuel + 1) cursor (bits + 1) cmd buf pos =
      decompLoop c4data fuel (cursor + 3) bits (cmd <<< 1) buf' (pos + 273) ∧
      buf'.length = 1500 := by
  obtain ⟨h1, hv1⟩ := List.getElem?_eq_some_iff.mp hb1
  obtain ⟨h2, hv2⟩ := List.getElem?_eq_some_iff.mp hb2
  obtain ⟨h3, hv3⟩ := List.getElem?_eq_some_iff.mp hb3
  have hg1 : c4data.get ⟨cursor, h1⟩ = 0 := by rw [List.get_eq_getElem]; exact hv1
  have hg2 : c4data.get ⟨cursor + 1, h2⟩ = 1 := by rw [List.get_eq_getElem]; exact hv2
  have hg3 : c4data.get ⟨cursor + 2, h3⟩ = 255 := by rw [List.get_eq_getElem]; exact hv3
  obtain ⟨buf', hrun, hlen', _⟩ :=
    copyLoop_spec 273 buf pos 1 (by omega) (by omega) (by omega)
  refine ⟨buf', ?_, by omega⟩
  rw [decompLoop]
  rw [if_neg (by simp [hcmd])]
  rw [dif_pos h1, dif_pos h2, hg1, hg2]
  rw [show (((0 &&& 0xF0 : Nat)) <<< 4) + 1 = 1 from rfl]
  rw [if_neg (by omega), if_neg (by omega), if_pos (by rfl : (0 &&& 0x0F : Nat) = 0)]
  rw [dif_pos h3, hg3]
  rw [show (255 + 18 : Nat) = 273 from rfl]
  rw [hrun]

/-- The token whose expansion crosses the end of the scratch buffer: the
write at index 1500 raises `IndexError` (not a `BufferOverflow` error). -/
theorem c4_token_fail (fuel cursor bits cmd pos : Nat) (buf : List Nat)
    (hlen : buf.length = 1500) (hcmd : cmd &&& 0x80 = 128)
    (hb1 : c4data[cursor]? = some 0) (hb2 : c4data[cursor + 1]? = some 1)
    (hb3 : c4data[cursor + 2]? = some 255)
    (hpos : 1 ≤ pos) (hposle : pos ≤ 1500) (hover : 1500 < pos + 273) :
    decompLoop c4data (fuel + 1) cursor (bits + 1) cmd buf pos = .error .index := by
  obtain ⟨h1, hv1⟩ := List.getElem?_eq_some_iff.mp hb1
  obtain ⟨h2, hv2⟩ := List.getElem?_eq_some_iff.mp hb2
  obtain ⟨h3, hv3⟩ := List.getElem?_eq_some_iff.mp hb3
  have hg1 : c4data.get ⟨cursor, h1⟩ = 0 := by rw [List.get_eq_getElem]; exact hv1
  have hg2 : c4data.get ⟨cursor + 1, h2⟩ = 1 := by rw [List.get_eq_getElem]; exact hv2
  have hg3 : c4data.get ⟨cursor + 2, h3⟩ = 255 := by rw [List.get_eq_getElem]; exact hv3
  have hrun := copyLoop_overflow 273 buf pos 1 (by omega) (by omega) (by omega) (by omega)
  rw [decompLoop]
  rw [if_neg (by simp [hcmd])]
  rw [dif_pos h1, dif_pos h2, hg1, hg2]
  rw [show (((0 &&& 0xF0 : Nat)) <<< 4) + 1 = 1 from rfl]
  rw [if_neg (by omega), if_neg (by omega), if_pos (by rfl : (0 &&& 0x0F : Nat) = 0)]
  rw [dif_pos h3, hg3]
  rw [show (255 + 18 : Nat) = 273 from rfl]
  rw [hrun]

/-- The decompression loop of the counterexample fails with `IndexError`
after five full expansions (cursor 1366) when the sixth crosses 1500. -/
theorem c4_loop : decompLoop c4data (243 + 1) 1 0 0 c4buf0 1 = .error .index := by
  have hlen0 : c4buf0.length = 1500 := by simp [c4buf0]
  have e0 := c4_cmd 243 1 0 1 255 c4buf0 (by rfl)
  obtain ⟨buf1, e1, hl1⟩ := c4_token 242 (1 + 1) 7 255 1 c4buf0 hlen0
    (by decide) (by rfl) (by rfl) (by rfl) (by omega) (by omega)
  obtain ⟨buf2, e2, hl2⟩ := c4_token 241 (1 + 1 + 3) 6 (255 <<< 1) (1 + 273) buf1 hl1
    (by decide) (by rfl) (by rfl) (by rfl) (by omega) (by omega)
  obtain ⟨buf3, e3, hl3⟩ := c4_token 240 (1 + 1 + 3 + 3) 5 (255 <<< 1 <<< 1)
    (1 + 273 + 273) buf2 hl2
    (by decide) (by rfl) (by rfl) (by rfl) (by omega) (by omega)
  obtain ⟨buf4, e4, hl4⟩ := c4_token 239 (1 + 1 + 3 + 3 + 3) 4 (255 <<< 1 <<< 1 <<< 1)
    (1 + 273 + 273 + 273) buf3 hl3
    (by decide) (by rfl) (by rfl) (by rfl) (by omega) (by omega)
  obtain ⟨buf5, e5, hl5⟩ := c4_token 238 (1 + 1 + 3 + 3 + 3 + 3) 3
    (255 <<< 1 <<< 1 <<< 1 <<< 1) (1 + 273 + 273 + 273 + 273) buf4 hl4
    (by decide) (by rfl) (by rfl) (by rfl) (by omega) (by omega)
  have e6 := c4_token_fail 237 (1 + 1 + 3 + 3 + 3 + 3 + 3) 2
    (255 <<< 1 <<< 1 <<< 1 <<< 1 <<< 1) (1 + 273 + 273 + 273 + 273 + 273) buf5 hl5
    (by decide) (by rfl) (by rfl) (by rfl) (by omega) (by omega) (by omega)
  exact e0.trans (e1.trans (e2.trans (e3.trans (e4.trans (e5.trans e6)))))

/-- Whole-chunk evaluation of the counterexample: `next_data` raises the
out-of-range `IndexError`, not the `BufferOverflow` exception. -/
theorem c4_next_data : next_data c4state = .error .index := by
  have h1 := next_data_compressed c4state 136 8 26 0 c4data (by rfl) (by norm_num)
  have h2 := decompress_next_eq c4input (0 + 4) (List.replicate 1500 0) 0
    (136 + 256 * 8) (26 + 256 * 0) c4data 65 c4buf0 (by rfl) (by rfl) (by rfl)
  rw [h1]
  rw [show (⟨c4state.input, c4state.inputPos + 4, c4state.buf, 0, 136 + 256 * 8⟩ : DState) =
    ⟨c4input, 0 + 4, List.replicate 1500 0, 0, 136 + 256 * 8⟩ from rfl]
  rw [h2]
  rw [show (9 * c4data.length + 10 : Nat) = 243 + 1 from rfl]
  rw [show (0 : Nat) + 1 = 1 from rfl]
  rw [c4_loop]

/-! ### Claim theorems -/

/-- C1 (counterexample): after `next_data` obtains a compressed chunk
(descriptor `decomp = 2, comp = 1`, payload `0x41`), the consumption cursor
`decompress_pos` is left at the decompressor's write cursor 1, not reset
to 0 as the claim states. -/
theorem c1_counterexample :
    Except.map DState.pos (next_data c1state) = .ok 1 ∧ (1 : Nat) ≠ 0 :=
  ⟨by rfl, by omega⟩

/-- C1 (amended): `next_data` resets `decompress_pos` to 0 on entry, so after
a fully-supplied raw chunk the cursor is 0; but after a decompressed chunk it
equals the decompressor's write cursor (the commented-out reset at the end of
`decompress_next` never runs), as the concrete compressed chunk shows. -/
theorem c1_theorem (s : DState) (a b c d : Nat) (rest : List Nat)
    (hrem : s.input.drop s.inputPos = a :: b :: c :: d :: rest)
    (hraw : a + 256 * b ≤ c + 256 * d)
    (hcap : a + 256 * b ≤ s.buf.length)
    (hsup : a + 256 * b ≤ rest.length) :
    Except.map DState.pos (next_data s) = .ok 0 ∧
    Except.map DState.pos (next_data c1state) = .ok 1 := by
  constructor
  · rw [next_data_raw_spec s a b c d rest hrem hraw hcap hsup]
    rfl
  · rfl

/-- C1 (witness): the raw part of the amended claim at a concrete one-byte
raw chunk. -/
theorem c1_witness :
    Except.map DState.pos (next_data (initState [1, 0, 1, 0, 65])) = .ok 0 ∧
    Except.map DState.pos (next_data c1state) = .ok 1 :=
  c1_theorem (initState [1, 0, 1, 0, 65]) 1 0 1 0 [65] (by rfl) (by norm_num)
    (by simp [initState]) (by simp)

/-- C2 (confirmed): a back-reference copy with `0 < offset ≤ cursor` and room
for `repeat_count` bytes copies one byte at a time, advancing the cursor after
each copy: the result extends the buffer contents so that every written byte
equals the byte `offset` positions earlier in the final buffer (self-
overlapping semantics), and on the decoded prefix `[0x41]` with
`offset = 1, repeat_count = 5` the output begins `0x41` six times. -/
theorem c2_theorem (buf : List Nat) (pos offset n : Nat)
    (h1 : 0 < offset) (h2 : offset ≤ pos) (h3 : pos + n ≤ buf.length) :
    (∃ buf', copyLoop buf pos offset n = .ok (buf', pos + n) ∧
      buf'.length = buf.length ∧
      (∀ j, j < pos → buf'[j]? = buf[j]?) ∧
      (∀ i, i < n → buf'[pos + i]? = buf'[pos + i - offset]?)) ∧
    copyLoop (65 :: List.replicate 1499 0) 1 1 5 =
      .ok (65 :: 65 :: 65 :: 65 :: 65 :: 65 :: List.replicate 1494 0, 6) := by
  constructor
  · obtain ⟨buf', hrun, hlen, hpre, _, hself⟩ := copyLoop_spec n buf pos offset h1 h2 h3
    exact ⟨buf', hrun, hlen, hpre, hself⟩
  · rfl

/-- C2 (witness): the general statement applied to the two-byte buffer
`[7, 0]` with `pos = offset = 1` and a single copy. -/
theorem c2_witness :
    ∃ buf', copyLoop [7, 0] 1 1 1 = .ok (buf', 1 + 1) ∧
      buf'.length = ([7, 0] : List Nat).length ∧
      (∀ j, j < 1 → buf'[j]? = ([7, 0] : List Nat)[j]?) ∧
      (∀ i, i < 1 → buf'[1 + i]? = buf'[1 + i - 1]?) :=
  (c2_theorem [7, 0] 1 1 1 (by omega) (by omega) (by simp)).1

/-- C3 (counterexample): a successful decode whose output is not
`stride_bytes * height` bytes.  The stream declares a 1500-byte raw chunk but
supplies 3 bytes, shrinking the scratch buffer; `write_data` for
`width = 2, height = 1, bits_per_pixel = 24` then completes without error and
emits 5 bytes instead of `stride * height = 8`. -/
theorem c3_counterexample :
    write_data 4 2 1 24 c3state = some (.ok [1, 2, 3, 0, 0]) ∧
    ([1, 2, 3, 0, 0] : List Nat).length ≠ align (2 * 24) 32 / 8 * 1 :=
  ⟨by rfl, by decide⟩

/-- C3 (amended): for decodes over a well-supplied stream (every raw chunk's
payload fully present, every compressed chunk declaring at most the 1500-byte
capacity), a successful `write_data` emits exactly `stride_bytes * height`
bytes; and on the worked example (`width = 2, height = 2, bpp = 24`, two
6-byte raw rows) the output is the two source rows in reversed order, each
padded with two zero bytes to the 8-byte stride. -/
theorem c3_theorem (fuel width height bpp : Nat) (s : DState) (out : List Nat)
    (u v w x y z p q r t m o : Nat)
    (hbuf : s.buf.length = 1500) (hsz : s.size ≤ 1500)
    (hgood : goodChunks (s.input.drop s.inputPos) = true)
    (hrun : write_data fuel width height bpp s = some (.ok out)) :
    out.length = align (width * bpp) 32 / 8 * height ∧
    write_data 4 2 2 24
        (initState [6, 0, 6, 0, u, v, w, x, y, z, 6, 0, 6, 0, p, q, r, t, m, o]) =
      some (.ok [p, q, r, t, m, o, 0, 0, u, v, w, x, y, z, 0, 0]) := by
  constructor
  · exact write_data_length fuel width height bpp s out hbuf hsz hgood hrun
  · rfl

/-- C3 (witness): the amended claim at the concrete 2×2 example stream. -/
theorem c3_witness :
    ([7, 8, 9, 10, 11, 12, 0, 0, 1, 2, 3, 4, 5, 6, 0, 0] : List Nat).length =
      align (2 * 24) 32 / 8 * 2 ∧
    write_data 4 2 2 24
        (initState [6, 0, 6, 0, 1, 2, 3, 4, 5, 6, 6, 0, 6, 0, 7, 8, 9, 10, 11, 12]) =
      some (.ok [7, 8, 9, 10, 11, 12, 0, 0, 1, 2, 3, 4, 5, 6, 0, 0]) :=
  c3_theorem 4 2 2 24
    (initState [6, 0, 6, 0, 1, 2, 3, 4, 5, 6, 6, 0, 6, 0, 7, 8, 9, 10, 11, 12])
    [7, 8, 9, 10, 11, 12, 0, 0, 1, 2, 3, 4, 5, 6, 0, 0]
    1 2 3 4 5 6 7 8 9 10 11 12
    (by simp [initState]) (by simp [initState]) (by rfl) (by rfl)

/-- C4 (counterexample): a compressed chunk declaring 2184 decompressed bytes
(over the 1500-byte capacity) whose expansion reaches the end of the scratch
buffer fails with the out-of-range `IndexError`, not with the
`BufferOverflow` exception (`BmpDumpingException("Decompress buffer
overflow")`), which the code only raises on the raw path. -/
theorem c4_counterexample :
    next_data c4state = .error .index ∧
    PyErr.index ≠ PyErr.bmp "Decompress buffer overflow" :=
  ⟨c4_next_data, by intro h; cases h⟩

/-- C4 (amended): a raw chunk declaring 1500 bytes succeeds and one declaring
1501 fails with `BufferOverflow`; but during back-reference expansion there is
no capacity check: once the write cursor has reached the end of the buffer,
the next single-byte copy fails with `IndexError`. -/
theorem c4_theorem (buf : List Nat) (pos offset v n : Nat)
    (h1 : buf.length ≤ pos) (h2 : buf[pos - offset]? = some v) :
    Except.map DState.size
        (next_data (initState ([220, 5, 220, 5] ++ List.replicate 1500 65))) =
      .ok 1500 ∧
    next_data (initState [221, 5, 221, 5]) =
      .error (.bmp "Decompress buffer overflow") ∧
    copyLoop buf pos offset (n + 1) = .error .index := by
  refine ⟨by rfl, by rfl, ?_⟩
  have hset : bufSet buf pos v = .error .index := by
    unfold bufSet
    rw [if_neg (by omega)]
  simp [copyLoop, h2, hset]

/-- C4 (witness): the expansion-overflow part at the one-byte buffer `[5]`
with the cursor already at the end. -/
theorem c4_witness :
    Except.map DState.size
        (next_data (initState ([220, 5, 220, 5] ++ List.replicate 1500 65))) =
      .ok 1500 ∧
    next_data (initState [221, 5, 221, 5]) =
      .error (.bmp "Decompress buffer overflow") ∧
    copyLoop [5] 1 1 (0 + 1) = .error .index :=
  c4_theorem [5] 1 1 5 0 (by simp) (by rfl)

/-- C5 (counterexample): with only 2 bytes left in the stream, `next_data`
returns successfully (resetting `decompress_pos` to 0, consuming the bytes,
leaving `decompress_size` at 7) instead of failing with a truncated-stream
error. -/
theorem c5_counterexample :
    next_data c5state = .ok ⟨[9, 7], 2, List.replicate 1500 0, 0, 7⟩ := by
  rfl

/-- C5 (amended): whenever fewer than 4 bytes remain, `next_data` silently
returns `ok`: the consumption cursor is reset to 0, the remaining bytes are
consumed, and the buffer and `decompress_size` are untouched; no error is
raised. -/
theorem c5_theorem (s : DState)
    (hshort : (s.input.drop s.inputPos).length < 4) :
    next_data s = .ok ⟨s.input, s.inputPos + (s.input.drop s.inputPos).length,
      s.buf, 0, s.size⟩ :=
  next_data_short s hshort

/-- C5 (witness): the silent return at a stream with one trailing byte. -/
theorem c5_witness :
    next_data ⟨[1, 2, 3], 2, List.replicate 1500 0, 9, 4⟩ =
      .ok ⟨[1, 2, 3], 2 + (([1, 2, 3] : List Nat).drop 2).length,
        List.replicate 1500 0, 0, 4⟩ :=
  c5_theorem ⟨[1, 2, 3], 2, List.replicate 1500 0, 9, 4⟩ (by simp)

/-- C6 (counterexample): two violations of the claimed invariant.  A
compressed chunk declaring 1501 bytes makes `next_data` succeed with
`decompress_size = 1501 > 1500` (no capacity check on the compressed path);
and a raw chunk declaring 10 bytes over a stream with only 3 shrinks the
scratch buffer to 1493 bytes (the buffer is resized). -/
theorem c6_counterexample :
    Except.map DState.size (next_data c6over) = .ok 1501 ∧ 1500 < 1501 ∧
    Except.map (fun t => t.buf.length) (next_data c6shrink) = .ok 1493 ∧
    (1493 : Nat) ≠ 1500 :=
  ⟨by rfl, by omega, by rfl, by omega⟩

/-- C6 (amended): the invariant `0 ≤ position ≤ size ≤ capacity` holds after
a fully-supplied raw chunk within capacity; the decompression loop never
resizes the buffer and keeps an in-range write cursor in range; and a
normally-terminating row fill preserves buffer length 1500 and
`size ≤ 1500` on a well-supplied stream.  (The compressed path sets
`size` to the declared size with no capacity check, and a truncated raw
payload shrinks the buffer, as the counterexample shows.) -/
theorem c6_theorem (s : DState) (a b c d : Nat) (rest : List Nat)
    (hrem : s.input.drop s.inputPos = a :: b :: c :: d :: rest)
    (hraw : a + 256 * b ≤ c + 256 * d)
    (hlen : s.buf.length = 1500)
    (hcap : a + 256 * b ≤ 1500)
    (hsup : a + 256 * b ≤ rest.length) :
    (∃ s', next_data s = .ok s' ∧ s'.pos = 0 ∧ s'.pos ≤ s'.size ∧
      s'.size ≤ 1500 ∧ s'.buf.length = 1500) ∧
    (∀ (data : List Nat) (fuel cursor bits cmd : Nat) (buf : List Nat)
      (pos : Nat) (buf' : List Nat) (pos' : Nat),
      decompLoop data fuel cursor bits cmd buf pos = .ok (buf', pos') →
      buf'.length = buf.length ∧ (pos ≤ buf.length → pos' ≤ buf.length)) ∧
    (∀ (fuel rowStart remaining offset : Nat) (img : List Nat) (s1 : DState)
      (img' : List Nat) (s1' : DState),
      s1.buf.length = 1500 → s1.size ≤ 1500 →
      goodChunks (s1.input.drop s1.inputPos) = true →
      rowStart + offset + remaining ≤ img.length →
      fillLoop rowStart fuel remaining offset img s1 = .done img' s1' →
      s1'.buf.length = 1500 ∧ s1'.size ≤ 1500) := by
  refine ⟨?_, ?_, ?_⟩
  · refine ⟨_, next_data_raw_spec s a b c d rest hrem hraw (by omega) hsup, rfl,
      by simp, by simp; omega, ?_⟩
    simp [List.length_append, List.length_take_of_le hsup, List.length_drop]
    omega
  · intro data fuel cursor bits cmd buf pos buf' pos' h
    exact decompLoop_ok_inv data fuel cursor bits cmd buf pos buf' pos' h
  · intro fuel rowStart remaining offset img s1 img' s1' k1 k2 k3 k4 h
    obtain ⟨_, j2, j3, _⟩ :=
      fillLoop_inv fuel rowStart remaining offset img s1 img' s1' k1 k2 k3 k4 h
    exact ⟨j2, j3⟩

/-- C6 (witness): the raw-chunk invariant at a 2-byte raw chunk with full
payload, together with the two universal preservation statements. -/
theorem c6_witness :
    (∃ s', next_data (initState [2, 0, 3, 0, 65, 66, 67]) = .ok s' ∧
      s'.pos = 0 ∧ s'.pos ≤ s'.size ∧ s'.size ≤ 1500 ∧ s'.buf.length = 1500) ∧
    (∀ (data : List Nat) (fuel cursor bits cmd : Nat) (buf : List Nat)
      (pos : Nat) (buf' : List Nat) (pos' : Nat),
      decompLoop data fuel cursor bits cmd buf pos = .ok (buf', pos') →
      buf'.length = buf.length ∧ (pos ≤ buf.length → pos' ≤ buf.length)) ∧
    (∀ (fuel rowStart remaining offset : Nat) (img : List Nat) (s1 : DState)
      (img' : List Nat) (s1' : DState),
      s1.buf.length = 1500 → s1.size ≤ 1500 →
      goodChunks (s1.input.drop s1.inputPos) = true →
      rowStart + offset + remaining ≤ img.length →
      fillLoop rowStart fuel remaining offset img s1 = .done img' s1' →
      s1'.buf.length = 1500 ∧ s1'.size ≤ 1500) :=
  c6_theorem (initState [2, 0, 3, 0, 65, 66, 67]) 2 0 3 0 [65, 66, 67]
    (by rfl) (by norm_num) (by simp [initState]) (by norm_num) (by simp)

/-- The stuck configuration of the scanline loop: with the stream exhausted
and `decompress_size = 0`, each iteration silently re-pulls nothing and copies
nothing, so the loop state repeats for ever. -/
theorem fillLoop_spin_empty : ∀ fuel,
    fillLoop 0 fuel 6 0 (List.replicate 6 0) (initState []) =
      .spin (List.replicate 6 0) (initState []) 6 0 := by
  intro fuel
  induction fuel with
  | zero => rfl
  | succ fuel ih =>
    have hnd : next_data (initState []) = .ok (initState []) := rfl
    rw [fillLoop]
    simp only [hnd]
    norm_num
    exact ih

/-- C7 (code bug): on an empty chunk stream with `width = 2, height = 1,
bits_per_pixel = 24`, the scanline-assembly loop of `write_data` never
terminates: for every iteration bound the loop is still spinning (`next_data`
returns silently with `decompress_size = 0`, zero bytes are copied, and the
state repeats), so the decode neither completes nor fails. -/
theorem c7_theorem : ∀ fuel, write_data fuel 2 1 24 (initState []) = none := by
  intro fuel
  have h := fillLoop_spin_empty fuel
  simp only [write_data]
  have e1 : align (2 * 24) 8 / 8 = 6 := by rfl
  rw [e1]
  have e3 : (6 * 1 : Nat) = 6 := by norm_num
  rw [e3]
  have efr : fillRows 6 fuel 1 (List.replicate 6 0) (initState []) =
      .spin (List.replicate 6 0) (initState []) 6 0 := by
    show fillRows 6 fuel (0 + 1) (List.replicate 6 0) (initState []) = _
    rw [fillRows]
    have e4 : (6 * 0 : Nat) = 0 := by norm_num
    rw [e4, h]
  rw [efr]

/-- C8 (confirmed): a chunk whose descriptor declares
`decomp ≤ comp` is treated as raw: when the declared size fits the buffer and
the payload is fully available, the bytes placed at the start of the scratch
buffer are exactly the next `decomp` stream bytes, and `decompress_size` is
set to `decomp`. -/
theorem c8_theorem (s : DState) (a b c d : Nat) (rest : List Nat)
    (hrem : s.input.drop s.inputPos = a :: b :: c :: d :: rest)
    (hraw : a + 256 * b ≤ c + 256 * d)
    (hcap : a + 256 * b ≤ s.buf.length)
    (hsup : a + 256 * b ≤ rest.length) :
    next_data s = .ok ⟨s.input, s.inputPos + 4 + (a + 256 * b),
      rest.take (a + 256 * b) ++ s.buf.drop (a + 256 * b), 0, a + 256 * b⟩ ∧
    (rest.take (a + 256 * b) ++ s.buf.drop (a + 256 * b)).take (a + 256 * b) =
      rest.take (a + 256 * b) := by
  refine ⟨next_data_raw_spec s a b c d rest hrem hraw hcap hsup, ?_⟩
  exact List.take_left' (List.length_take_of_le hsup)

/-- C8 (witness): the raw round-trip at a 3-byte raw chunk. -/
theorem c8_witness :
    next_data (initState [3, 0, 5, 0, 65, 66, 67, 68, 69]) =
      .ok ⟨[3, 0, 5, 0, 65, 66, 67, 68, 69], 0 + 4 + (3 + 256 * 0),
        ([65, 66, 67, 68, 69] : List Nat).take (3 + 256 * 0) ++
          (List.replicate 1500 0).drop (3 + 256 * 0), 0, 3 + 256 * 0⟩ ∧
    (([65, 66, 67, 68, 69] : List Nat).take (3 + 256 * 0) ++
        (List.replicate 1500 0).drop (3 + 256 * 0)).take (3 + 256 * 0) =
      ([65, 66, 67, 68, 69] : List Nat).take (3 + 256 * 0) :=
  c8_theorem (initState [3, 0, 5, 0, 65, 66, 67, 68, 69]) 3 0 5 0
    [65, 66, 67, 68, 69] (by rfl) (by norm_num) (by simp [initState]) (by simp)

/-- C9 (confirmed): for a back-reference token (command bit set) with both
token bytes available, `offset = ((b1 & 0xF0) << 4) | b2`: an `offset = 0`
token makes the decompressor return immediately with the buffer and cursor
untouched (the end-of-chunk sentinel, remaining command bits and payload
ignored), and an `offset` greater than the current output cursor fails with
the `InvalidOffset` error, so the copy never reads before the start of the
decoded output. -/
theorem c9_theorem (data : List Nat) (fuel cursor bits cmd : Nat)
    (buf : List Nat) (pos b1 b2 : Nat)
    (hcmd : cmd &&& 0x80 = 128)
    (hb1 : data[cursor]? = some b1)
    (hb2 : data[cursor + 1]? = some b2) :
    (((b1 &&& 0xF0) <<< 4) + b2 = 0 →
      decompLoop data (fuel + 1) cursor (bits + 1) cmd buf pos = .ok (buf, pos)) ∧
    (((b1 &&& 0xF0) <<< 4) + b2 > pos →
      decompLoop data (fuel + 1) cursor (bits + 1) cmd buf pos =
        .error (.bmp "Invalid compression offset")) := by
  obtain ⟨h1, hv1⟩ := List.getElem?_eq_some_iff.mp hb1
  obtain ⟨h2, hv2⟩ := List.getElem?_eq_some_iff.mp hb2
  have hg1 : data.get ⟨cursor, h1⟩ = b1 := by
    rw [List.get_eq_getElem]; exact hv1
  have hg2 : data.get ⟨cursor + 1, h2⟩ = b2 := by
    rw [List.get_eq_getElem]; exact hv2
  rw [decompLoop]
  rw [if_neg (by simp [hcmd])]
  rw [dif_pos h1, dif_pos h2, hg1, hg2]
  constructor
  · intro h0
    rw [if_pos h0]
  · intro hoff
    rw [if_neg (by omega), if_pos hoff]

/-- C9 (witness): the `InvalidOffset` branch on the payload `[0, 7]` at
cursor 0 with output cursor 0 (`offset = 7 > 0`). -/
theorem c9_witness :
    (((0 &&& 0xF0 : Nat) <<< 4) + 7 = 0 →
      decompLoop [0, 7] (3 + 1) 0 (0 + 1) 128 [] 0 = .ok ([], 0)) ∧
    (((0 &&& 0xF0 : Nat) <<< 4) + 7 > 0 →
      decompLoop [0, 7] (3 + 1) 0 (0 + 1) 128 [] 0 =
        .error (.bmp "Invalid compression offset")) :=
  c9_theorem [0, 7] 3 0 0 128 [] 0 0 7 (by rfl) (by rfl) (by rfl)

/-- C10 (counterexample): `decompress_next` reads the payload out of bounds.
With descriptor `decomp = 1 > comp = 0` the payload is empty, and the
unconditional first-byte read `compressed_data[0]` is out of range: the call
fails with `IndexError`, so not every payload access satisfies
`cursor < len(payload)`. -/
theorem c10_counterexample : next_data c10empty = .error .index := by rfl

/-- C10 (amended): inside a command group the payload reads are unchecked
(only the outer `while` tests `cursor < len`), so an out-of-bounds read is
possible but surfaces as a Python `IndexError` rather than silent corruption:
a literal bit with the cursor at or past the end of the payload raises
`IndexError`, and a payload ending mid-token does the same. -/
theorem c10_theorem :
    (∀ (data : List Nat) (fuel cursor bits cmd : Nat) (buf : List Nat) (pos : Nat),
      cmd &&& 0x80 ≠ 128 → data.length ≤ cursor →
      decompLoop data (fuel + 1) cursor (bits + 1) cmd buf pos = .error .index) ∧
    next_data c10mid = .error .index := by
  constructor
  · intro data fuel cursor bits cmd buf pos hlit hend
    rw [decompLoop]
    rw [if_pos hlit, dif_neg (by omega)]
  · rfl

/-- C10 (witness): the unchecked literal read at the end of the one-byte
payload `[5]`. -/
theorem c10_witness :
    decompLoop [5] (3 + 1) 1 (0 + 1) 0 [] 0 = .error .index :=
  c10_theorem.1 [5] 3 1 0 0 [] 0 (by decide) (by simp)
